import Mathlib

/-!
Verification of the DPERS covariance estimator (`src/dpers.py`).

The implementation works on IEEE-754 `float64` NumPy arrays.  We embed it
shallowly: finite values are exact rationals, and the special values
`nan`, `+inf`, `-inf` are explicit constructors, with NumPy's arithmetic,
comparison, masking and argmax semantics modelled case by case.  The missing
value sentinel is `nan`, exactly as in the source (`np.isnan`).

The only genuinely numeric library routines the source calls are
`np.roots` (companion-matrix eigenvalues) and `np.log`.  We model
`np.roots`' own plumbing (zero trimming, the non-finite rejection performed
by `eigvals`, appending of trailing zero roots) concretely, and take the
eigenvalue extraction itself and the logarithm as parameters of the model,
bundled in the `Numerics` structure: the source delegates exactly these two
computations to the numeric library.
-/

/-- Exceptions the modelled code can raise. -/
inductive Err where
  | invalidInput : Err
  | linAlgError : Err
  | valueError : Err
deriving DecidableEq, Repr

/-- Model of an IEEE-754 double: an exact rational, or one of the special
values NaN, +inf, -inf.  (Rounding is not modelled: every claim checked here
is structural, and every concrete evaluation below is exact in float64.) -/
inductive F where
  | nan : F
  | pinf : F
  | ninf : F
  | fin : ℚ → F
deriving DecidableEq, Repr

namespace F

/-- NumPy `isnan`. -/
def isnan : F → Bool
  | nan => true
  | _ => false

/-- A value is finite iff it is neither NaN nor an infinity
(`np.isfinite`, the check done by `eigvals` before computing). -/
def isfinite : F → Bool
  | fin _ => true
  | _ => false

/-- IEEE negation. -/
def neg : F → F
  | nan => nan
  | pinf => ninf
  | ninf => pinf
  | fin q => fin (-q)

/-- IEEE addition (NaN propagates; opposite infinities give NaN). -/
def add : F → F → F
  | nan, _ => nan
  | _, nan => nan
  | pinf, ninf => nan
  | pinf, _ => pinf
  | ninf, pinf => nan
  | ninf, _ => ninf
  | fin _, pinf => pinf
  | fin _, ninf => ninf
  | fin a, fin b => fin (a + b)

/-- IEEE subtraction, `a - b = a + (-b)` exactly. -/
def sub (a b : F) : F := add a (neg b)

/-- IEEE multiplication (zero times infinity is NaN). -/
def mul : F → F → F
  | nan, _ => nan
  | _, nan => nan
  | pinf, pinf => pinf
  | pinf, ninf => ninf
  | ninf, pinf => ninf
  | ninf, ninf => pinf
  | pinf, fin q => if q = 0 then nan else if 0 < q then pinf else ninf
  | fin q, pinf => if q = 0 then nan else if 0 < q then pinf else ninf
  | ninf, fin q => if q = 0 then nan else if 0 < q then ninf else pinf
  | fin q, ninf => if q = 0 then nan else if 0 < q then ninf else pinf
  | fin a, fin b => fin (a * b)

/-- IEEE division.  Zeros carry no sign in the rational model, so a zero
divisor behaves as `+0.0`; every division performed in the proofs below
either has a nonzero divisor or a divisor that is literally `+0.0` in the
source's arithmetic. -/
def div : F → F → F
  | nan, _ => nan
  | _, nan => nan
  | pinf, pinf => nan
  | pinf, ninf => nan
  | ninf, pinf => nan
  | ninf, ninf => nan
  | pinf, fin q => if q < 0 then ninf else pinf
  | ninf, fin q => if q < 0 then pinf else ninf
  | fin _, pinf => fin 0
  | fin _, ninf => fin 0
  | fin a, fin b =>
      if b = 0 then (if a = 0 then nan else if 0 < a then pinf else ninf)
      else fin (a / b)

instance : Neg F := ⟨neg⟩
instance : Add F := ⟨add⟩
instance : Sub F := ⟨sub⟩
instance : Mul F := ⟨mul⟩
instance : Div F := ⟨div⟩

/-- IEEE `<=` as a Bool: false whenever either side is NaN. -/
def fle : F → F → Bool
  | nan, _ => false
  | _, nan => false
  | ninf, _ => true
  | pinf, pinf => true
  | pinf, _ => false
  | fin _, pinf => true
  | fin _, ninf => false
  | fin a, fin b => decide (a ≤ b)

/-- IEEE `>` as a Bool: false whenever either side is NaN. -/
def fgt : F → F → Bool
  | nan, _ => false
  | _, nan => false
  | pinf, pinf => false
  | pinf, _ => true
  | ninf, _ => false
  | fin _, pinf => false
  | fin _, ninf => true
  | fin a, fin b => decide (b < a)

/-- NumPy `x != 0` on a float: true for NaN (NaN compares unequal to
everything) and for the infinities, and `q ≠ 0` for a finite value.
This is also the "nonzero" test `np.nonzero` applies when trimming
polynomial coefficients. -/
def fne0 : F → Bool
  | nan => true
  | pinf => true
  | ninf => true
  | fin q => decide (q ≠ 0)

/-- Sum of a list of floats, as `np.sum` (0.0 for the empty array; exact
rational accumulation, which for the special values agrees with any
summation order). -/
def fsum (l : List F) : F := l.foldl add (fin 0)

end F

/-- The two numeric-library computations the source delegates: the
eigenvalue extraction inside `np.roots` and the logarithm `np.log`.
`eig es` stands for `np.linalg.eigvals` applied to the companion matrix
whose first row is `es` (the values `-p[1:]/p[0]`); it returns the list of
eigenvalues as complex numbers, modelled as pairs (real part, imaginary
part).  `log q` stands for `np.log` on a positive finite argument. -/
structure Numerics where
  eig : List ℚ → List (ℚ × ℚ)
  log : ℚ → ℚ

namespace DPERS

/-- NumPy `np.log` on a float, with the positive finite case delegated to
the numerics parameter.  (`np.log(+inf) = +inf`; the source only evaluates
the log where its argument is strictly positive, see `etaAt`.) -/
def flog (nm : Numerics) : F → F
  | F.pinf => F.pinf
  | F.fin q => F.fin (nm.log q)
  | _ => F.nan

/-- NumPy `np.argmax` on a float array: index of the running maximum,
where the comparison `!(v <= max)` lets NaN win immediately (NumPy
propagates NaN as the maximum and stops at the first one).  Raises
`ValueError` on an empty array. -/
def argmaxGo : List F → F → ℕ → ℕ → ℕ
  | [], _, best, _ => best
  | v :: vs, mp, best, cur =>
      if F.fle v mp then argmaxGo vs mp best (cur + 1)
      else if v.isnan then cur
      else argmaxGo vs v cur (cur + 1)

/-- NumPy `np.argmax` (see `argmaxGo`). -/
def npArgmax : List F → Except Err ℕ
  | [] => .error .valueError
  | x :: xs => .ok (if x.isnan then 0 else argmaxGo xs x 0 1)

/-- Fallback rational extraction from a float known to be finite. -/
def toRat : F → ℚ
  | F.fin q => q
  | _ => 0

/-- Model of `np.roots`: trim leading and trailing zero coefficients
(NaN and the infinities count as nonzero, exactly as in `np.nonzero`),
return the empty array if everything is zero, refuse non-finite companion
matrix entries with a `LinAlgError` (the `_assert_finite` check inside
`np.linalg.eigvals`), delegate the eigenvalue extraction to the numerics
parameter, and tack one zero root onto the back per trailing zero
coefficient. -/
def npRoots (nm : Numerics) (coef : List F) : Except Err (List (ℚ × ℚ)) :=
  let nz := (List.range coef.length).filter fun i => F.fne0 (coef.getD i (F.fin 0))
  match nz.head?, nz.getLast? with
  | some lo, some hi =>
      let trailing := coef.length - 1 - hi
      let q := (coef.drop lo).take (hi + 1 - lo)
      if q.length ≤ 1 then
        .ok (List.replicate trailing ((0 : ℚ), (0 : ℚ)))
      else
        let lead := q.headD (F.fin 0)
        let comp := q.tail.map fun c => F.neg (F.div c lead)
        if comp.all F.isfinite then
          .ok (nm.eig (comp.map toRat) ++ List.replicate trailing ((0 : ℚ), (0 : ℚ)))
        else
          .error .linAlgError
  | _, _ => .ok []

/-- Rows of the two-column sub-table in which neither entry is missing:
`idx = ~np.isnan(X_ij).any(-1)`, `complt_X = X_ij[idx, :]`. -/
def jointRows (Xij : List (F × F)) : List (F × F) :=
  Xij.filter fun r => !(r.1.isnan || r.2.isnan)

/-- Rows in which not every entry is missing:
`missing_idx = np.isnan(X_ij).all(1)`, `X_ij = X_ij[~missing_idx]`
(the preliminary filtering done by `fit` before calling the solver). -/
def dropBothMissing (Xij : List (F × F)) : List (F × F) :=
  Xij.filter fun r => !(r.1.isnan && r.2.isnan)

/-- The polynomial coefficient array of `find_cov_ij`, built exactly as in
the source: the list `[s12*S_ii*S_jj, m*S_ii*S_jj - s22*S_ii - s11*S_jj,
s12, -m]` followed by the `[::-1]` reversal, where the second-moment sums
range over the jointly observed rows `J`. -/
def coefOfJ (J : List (F × F)) (Sii Sjj : F) : List F :=
  let m : F := F.fin (J.length : ℚ)
  let s11 := F.fsum (J.map fun r => r.1 * r.1)
  let s22 := F.fsum (J.map fun r => r.2 * r.2)
  let s12 := F.fsum (J.map fun r => r.1 * r.2)
  ([s12 * Sii * Sjj, m * Sii * Sjj - s22 * Sii - s11 * Sjj, s12, -m]).reverse

/-- The candidate covariance values of `find_cov_ij`:
`roots = np.real(np.roots(coef))`. -/
def candidatesOfJ (nm : Numerics) (J : List (F × F)) (Sii Sjj : F) :
    Except Err (List F) :=
  (npRoots nm (coefOfJ J Sii Sjj)).map (List.map fun c => F.fin c.1)

/-- The objective value (`etas`) the source computes for one candidate root:
`scond = S_jj - roots**2/S_ii` and
`etas = -m * np.log(scond, out=-inf, where=scond>0)
        - (S_jj - 2*roots/S_ii*s12 + roots**2/S_ii**2*s11)/scond`,
with the exact association and masking of the source. -/
def etaAt (nm : Numerics) (m : ℕ) (s11 s12 Sii Sjj r : F) : F :=
  let scond := Sjj - r * r / Sii
  let logv := if F.fgt scond (F.fin 0) then flog nm scond else F.ninf
  F.fin (-(m : ℚ)) * logv -
    (Sjj - F.fin 2 * r / Sii * s12 + r * r / (Sii * Sii) * s11) / scond

/-- Body of `DPERS.find_cov_ij` on the jointly observed rows. -/
def findCovCore (nm : Numerics) (J : List (F × F)) (Sii Sjj : F) :
    Except Err F := do
  let m := J.length
  let s11 := F.fsum (J.map fun r => r.1 * r.1)
  let s12 := F.fsum (J.map fun r => r.1 * r.2)
  let cands ← candidatesOfJ nm J Sii Sjj
  let etas := cands.map (etaAt nm m s11 s12 Sii Sjj)
  let idx ← npArgmax etas
  return cands.getD idx (F.fin 0)

/-- `DPERS.find_cov_ij(X_ij, S_ii, S_jj)`: restrict to the jointly observed
rows and run the polynomial estimation. -/
def find_cov_ij (nm : Numerics) (Xij : List (F × F)) (Sii Sjj : F) :
    Except Err F :=
  findCovCore nm (jointRows Xij) Sii Sjj

/-- A two-dimensional float array, as a list of rows. -/
abbrev Mat := List (List F)

/-- Read entry `(i, j)` of a matrix (out-of-range reads default to `0.0`;
every read performed by the modelled code is in range). -/
def getM (S : Mat) (i j : ℕ) : F := (List.getD S i []).getD j (F.fin 0)

/-- Write entry `(i, j)` of a matrix. -/
def setM (S : Mat) (i j : ℕ) (v : F) : Mat :=
  List.set S i ((List.getD S i []).set j v)

/-- NumPy `np.var` with the default `ddof=0` applied to the non-missing
entries of one column: `x_i = x_i[~np.isnan(x_i)]; np.var(x_i)`.
The variance of an empty slice is NaN. -/
def npVar (xs : List F) : F :=
  let obs := xs.filter fun v => !v.isnan
  if obs.length = 0 then F.nan
  else
    let n : F := F.fin (obs.length : ℚ)
    let mu := F.fsum obs / n
    F.fsum (obs.map fun x => (x - mu) * (x - mu)) / n

/-- Column `i` of the dataset, `X[:, i]`. -/
def colF (X : List (List F)) (i : ℕ) : List F :=
  X.map fun row => row.getD i F.nan

/-- Number of columns: the second component of `X.shape`. -/
def ncols (X : List (List F)) : ℕ := (X.headD []).length

/-- The upper-triangle index pairs
`list(zip(*np.triu_indices(p, 1)))`, in row-major order. -/
def upperIdx (p : ℕ) : List (ℕ × ℕ) :=
  (((List.range p).product (List.range p)).filter fun q => decide (q.1 < q.2))

/-- The two-column sub-table `X[:, [i, j]]` with the rows missing in both
columns removed (lines 51-55 of the source). -/
def pairXij (X : List (List F)) (i j : ℕ) : List (F × F) :=
  dropBothMissing (X.map fun row => (row.getD i F.nan, row.getD j F.nan))

/-- The value stored at one upper-triangle cell: `find_cov_ij` when both
marginal variances compare `!= 0`, else the NaN sentinel (lines 57-61). -/
def pairCell (nm : Numerics) (X : List (List F)) (i j : ℕ) (Sii Sjj : F) :
    Except Err F :=
  if F.fne0 Sii && F.fne0 Sjj then find_cov_ij nm (pairXij X i j) Sii Sjj
  else .ok F.nan

/-- One iteration of the upper-triangle loop of `fit`. -/
def pairStep (nm : Numerics) (X : List (List F)) (S : Mat) (ij : ℕ × ℕ) :
    Except Err Mat :=
  (pairCell nm X ij.1 ij.2 (getM S ij.1 ij.1) (getM S ij.2 ij.2)).map
    fun v => setM S ij.1 ij.2 v

/-- The upper-triangle loop of `fit` over a list of index pairs. -/
def foldPairs (nm : Numerics) (X : List (List F)) (ps : List (ℕ × ℕ))
    (S : Mat) : Except Err Mat :=
  ps.foldlM (pairStep nm X) S

/-- The diagonal pass of `fit`: `S[i, i] = np.var(x_i)` for each feature. -/
def diagFill (X : List (List F)) (p : ℕ) : Mat :=
  (List.range p).foldl
    (fun S i => setM S i i (npVar (colF X i)))
    (List.replicate p (List.replicate p (F.fin 0)))

/-- `S = S + S.T` for the square matrix `S`. -/
def symmM (S : Mat) : Mat :=
  (List.range S.length).map fun i =>
    (List.range S.length).map fun j => F.add (getM S i j) (getM S j i)

/-- The final pass of `fit`: `S[i, i] = S[i, i] * .5` for each feature. -/
def halveDiag (S : Mat) (p : ℕ) : Mat :=
  (List.range p).foldl
    (fun T i => setM T i i (F.mul (getM T i i) (F.fin (1/2)))) S

/-- Body of `DPERS.fit` on a two-dimensional array (lines 34-71). -/
def fitCore (nm : Numerics) (X : List (List F)) : Except Err Mat :=
  let p := ncols X
  let S1 := diagFill X p
  match foldPairs nm X (upperIdx p) S1 with
  | .error e => .error e
  | .ok S2 => .ok (halveDiag (symmM S2) p)

/-- A NumPy array of some dimensionality (the input of `fit`). -/
inductive NDArray where
  | d0 : F → NDArray
  | d1 : List F → NDArray
  | d2 : List (List F) → NDArray
  | d3 : List (List (List F)) → NDArray

/-- NumPy `np.ndim`. -/
def ndimA : NDArray → ℕ
  | .d0 _ => 0
  | .d1 _ => 1
  | .d2 _ => 2
  | .d3 _ => 3

/-- `DPERS.fit(X)`: the dimensionality assertion (line 32; `astype` on
line 29 is the identity on a float array), then the covariance estimation. -/
def fit (nm : Numerics) (A : NDArray) : Except Err Mat :=
  match A with
  | .d2 X => fitCore nm X
  | _ => .error .invalidInput

/-- The mutable state of a `DPERS` object: `self.Xtrain` and `self.cov`,
both `None` after `__init__`. -/
structure DPERSState where
  Xtrain : Option NDArray
  cov : Option Mat

/-- `DPERS.fit` with its attribute writes: `self.Xtrain = X` is executed
once the assertion passes (line 33), `self.cov = S` only on success
(line 69); on an exception inside the loop the state keeps its old `cov`. -/
def fitWithState (nm : Numerics) (st : DPERSState) (A : NDArray) :
    DPERSState × Except Err Mat :=
  match A with
  | .d2 X =>
      match fitCore nm X with
      | .ok S => (⟨some A, some S⟩, .ok S)
      | .error e => (⟨some A, st.cov⟩, .error e)
  | _ => (st, .error .invalidInput)

/-- A matrix is a `p` by `p` table. -/
def Sq (S : Mat) (p : ℕ) : Prop :=
  List.length S = p ∧ ∀ r ∈ S, List.length r = p

end DPERS

open DPERS

/-- A trivial instantiation of the numeric-library parameter, used in
concrete evaluations that never reach the eigenvalue extraction or only
evaluate the logarithm at 1 (where `np.log(1.0) = 0.0` exactly). -/
def nmTriv : Numerics := ⟨fun _ => [], fun _ => 0⟩

/-- The eigenvalue routine for the C3 counterexample: the source passes the
cubic `-2r^3 + 2r^2 - 2r + 2` (companion first row `[1, -1, 1]`), whose
exact roots are `1`, `i`, `-i`. -/
def nmCubic : Numerics := ⟨fun _ => [(1, 0), (0, 1), (0, -1)], fun _ => 0⟩

/-- Modelled from the spec (C3, step 8): the objective exactly as the claim
states it, with value −∞ for an infeasible candidate (`scond ≤ 0`), and the
claim's formula otherwise. -/
def etaClaim (nm : Numerics) (m : ℕ) (s11 s12 Sii Sjj r : F) : F :=
  let scond := Sjj - r * r / Sii
  if F.fgt scond (F.fin 0) then
    F.fin (-(m : ℚ)) * flog nm scond -
      (Sjj - F.fin 2 * r / Sii * s12 + r * r / (Sii * Sii) * s11) / scond
  else F.ninf

/-- Modelled from the spec (C3, step 9): the solver as the claim describes
it — identical to `findCovCore` except that the objective of an infeasible
candidate is −∞ rather than what the code computes. -/
def findCovClaim (nm : Numerics) (Xij : List (F × F)) (Sii Sjj : F) :
    Except Err F := do
  let J := jointRows Xij
  let m := J.length
  let s11 := F.fsum (J.map fun r => r.1 * r.1)
  let s12 := F.fsum (J.map fun r => r.1 * r.2)
  let cands ← candidatesOfJ nm J Sii Sjj
  let etas := cands.map (etaClaim nm m s11 s12 Sii Sjj)
  let idx ← npArgmax etas
  return cands.getD idx (F.fin 0)

/-- Modelled from the spec's wording (C4): the jointly observed rows,
"rows where neither of two specified features is missing". -/
def jointRowsSpec (Xij : List (F × F)) : List (F × F) :=
  Xij.filter fun r => (!r.1.isnan) && (!r.2.isnan)

/-- Modelled from the spec's wording (C4): the cubic coefficient list in
the claim's order — `−m` for r³, `s12` for r², `m·S_ii·S_jj − s22·S_ii −
s11·S_jj` for r¹, `s12·S_ii·S_jj` for r⁰ — with the raw uncentered
second-moment sums over the jointly observed rows. -/
def coefSpec (J : List (F × F)) (Sii Sjj : F) : List F :=
  let m : F := F.fin (J.length : ℚ)
  let s11 := F.fsum (J.map fun r => r.1 * r.1)
  let s22 := F.fsum (J.map fun r => r.2 * r.2)
  let s12 := F.fsum (J.map fun r => r.1 * r.2)
  [-m, s12, m * Sii * Sjj - s22 * Sii - s11 * Sjj, s12 * Sii * Sjj]

/-- Modelled from the spec's wording (C4): compute all (possibly complex)
roots of that cubic and take the real part of each as the candidate set. -/
def candidatesSpec (nm : Numerics) (Xij : List (F × F)) (Sii Sjj : F) :
    Except Err (List F) :=
  (npRoots nm (coefSpec (jointRowsSpec Xij) Sii Sjj)).map
    (List.map fun c => F.fin c.1)

/-! Theorems, starting with the two arithmetic facts about the float model
and helper lemmas about list reads and writes. -/

theorem F.add_comm' (a b : F) : F.add a b = F.add b a := by
  cases a <;> cases b <;> first | rfl | (simp [F.add]; ring)

theorem F.halve_double (v : F) : F.mul (F.add v v) (F.fin (1/2)) = v := by
  cases v with
  | nan => rfl
  | pinf => simp [F.add, F.mul]
  | ninf => simp [F.add, F.mul]
  | fin q => simp [F.add, F.mul]; ring

theorem getD_set_self {α : Type} (l : List α) :
    ∀ (i : ℕ) (v d : α), i < l.length → (l.set i v).getD i d = v := by
  induction l with
  | nil => intro i v d h; simp at h
  | cons x xs ih =>
      intro i v d h
      cases i with
      | zero => simp
      | succ n =>
          simp only [List.set_cons_succ, List.getD_cons_succ]
          exact ih n v d (by simpa using h)

theorem getD_set_ne {α : Type} (l : List α) :
    ∀ (i j : ℕ) (v d : α), i ≠ j → (l.set i v).getD j d = l.getD j d := by
  induction l with
  | nil => intro i j v d _; simp [List.set]
  | cons x xs ih =>
      intro i j v d hij
      cases i with
      | zero =>
          cases j with
          | zero => exact absurd rfl hij
          | succ m => simp
      | succ n =>
          cases j with
          | zero => simp
          | succ m =>
              simp only [List.set_cons_succ, List.getD_cons_succ]
              exact ih n m v d (by omega)

theorem mem_of_mem_set {α : Type} (l : List α) :
    ∀ (i : ℕ) (v x : α), x ∈ l.set i v → x = v ∨ x ∈ l := by
  induction l with
  | nil => intro i v x h; simp [List.set] at h
  | cons y ys ih =>
      intro i v x h
      cases i with
      | zero =>
          rcases List.mem_cons.mp h with h1 | h1
          · exact Or.inl h1
          · exact Or.inr (List.mem_cons_of_mem _ h1)
      | succ n =>
          rcases List.mem_cons.mp h with h1 | h1
          · exact Or.inr (h1 ▸ List.mem_cons_self _ _)
          · rcases ih n v x h1 with h2 | h2
            · exact Or.inl h2
            · exact Or.inr (List.mem_cons_of_mem _ h2)

theorem getD_map_range {α : Type} (f : ℕ → α) (n a : ℕ) (d : α) (h : a < n) :
    ((List.range n).map f).getD a d = f a := by
  rw [List.getD_eq_getElem _ _ (by simpa using h)]
  simp

theorem getD_map_range_ge {α : Type} (f : ℕ → α) (n a : ℕ) (d : α) (h : n ≤ a) :
    ((List.range n).map f).getD a d = d :=
  List.getD_eq_default _ _ (by simpa using h)

namespace DPERS

theorem sq_replicate (p : ℕ) (z : F) :
    Sq (List.replicate p (List.replicate p z)) p := by
  constructor
  · simp
  · intro r hr
    rw [List.eq_of_mem_replicate hr]
    simp

theorem sq_setM {S : Mat} {p : ℕ} (h : Sq S p) (i j : ℕ) (v : F) :
    Sq (setM S i j v) p := by
  obtain ⟨hlen, hrow⟩ := h
  rcases Nat.lt_or_ge i (List.length S) with hi | hi
  · constructor
    · simpa [setM] using hlen
    · intro r hr
      rcases mem_of_mem_set _ _ _ _ hr with h1 | h1
      · subst h1
        rw [List.getD_eq_getElem S [] hi]
        simpa using hrow _ (List.getElem_mem hi)
      · exact hrow r h1
  · have : setM S i j v = S := by
      unfold setM
      exact List.set_eq_of_length_le hi
    rw [this]
    exact ⟨hlen, hrow⟩

theorem getM_setM_self {S : Mat} {p : ℕ} (hsq : Sq S p) {i j : ℕ}
    (hi : i < p) (hj : j < p) (v : F) : getM (setM S i j v) i j = v := by
  obtain ⟨hlen, hrow⟩ := hsq
  have hiS : i < List.length S := by omega
  unfold getM setM
  rw [getD_set_self S i _ [] hiS]
  apply getD_set_self
  rw [List.getD_eq_getElem S [] hiS]
  rw [hrow _ (List.getElem_mem hiS)]
  exact hj

theorem getM_setM_ne (S : Mat) (i j a b : ℕ) (v : F)
    (h : a ≠ i ∨ b ≠ j) : getM (setM S i j v) a b = getM S a b := by
  unfold getM setM
  by_cases hai : a = i
  · have hbj : b ≠ j := by
      rcases h with h1 | h1
      · exact absurd hai h1
      · exact h1
    subst hai
    rcases Nat.lt_or_ge a (List.length S) with hlt | hge
    · rw [getD_set_self S a _ [] hlt]
      exact getD_set_ne _ j b v _ (Ne.symm hbj)
    · rw [List.set_eq_of_length_le hge]
  · rw [getD_set_ne S i a _ [] (Ne.symm hai)]

theorem getD_replicate' {α : Type} (n a : ℕ) (x d : α) :
    (List.replicate n x).getD a d = if a < n then x else d := by
  rcases Nat.lt_or_ge a n with h | h
  · rw [List.getD_eq_getElem _ _ (by simpa using h)]
    simp [h]
  · rw [List.getD_eq_default _ _ (by simpa using h)]
    simp [Nat.not_lt.mpr h]

theorem getM_replicate (p : ℕ) (a b : ℕ) :
    getM (List.replicate p (List.replicate p (F.fin 0))) a b = F.fin 0 := by
  unfold getM
  rw [getD_replicate']
  split
  · rw [getD_replicate']
    split <;> rfl
  · rfl

/-! Invariants of the three loops of `fit`. -/

theorem diagGo_get (X : List (List F)) (p : ℕ) :
    ∀ (l : List ℕ) (S : Mat), Sq S p → (∀ i ∈ l, i < p) → l.Nodup →
    ∀ a b, getM (l.foldl (fun T i => setM T i i (npVar (colF X i))) S) a b
      = if a = b ∧ a ∈ l then npVar (colF X a) else getM S a b := by
  intro l
  induction l with
  | nil => intro S _ _ _ a b; simp
  | cons i t ih =>
      intro S hsq hmem hnd a b
      have hip : i < p := hmem i (List.mem_cons_self _ _)
      have hnd' := List.nodup_cons.mp hnd
      have hsq' := sq_setM hsq i i (npVar (colF X i))
      simp only [List.foldl_cons]
      rw [ih _ hsq' (fun x hx => hmem x (List.mem_cons_of_mem _ hx)) hnd'.2]
      by_cases hab : a = b
      · subst hab
        by_cases hat : a ∈ t
        · rw [if_pos ⟨rfl, hat⟩, if_pos ⟨rfl, List.mem_cons_of_mem _ hat⟩]
        · by_cases hai : a = i
          · subst hai
            rw [if_neg (fun h => hat h.2), if_pos ⟨rfl, List.mem_cons_self _ _⟩]
            exact getM_setM_self hsq hip hip _
          · rw [if_neg (fun h => hat h.2), if_neg (fun h => by
              rcases List.mem_cons.mp h.2 with h' | h'
              · exact hai h'
              · exact hat h')]
            exact getM_setM_ne S i i a a _ (Or.inl hai)
      · rw [if_neg (fun h => hab h.1), if_neg (fun h => hab h.1)]
        apply getM_setM_ne
        by_cases hai : a = i
        · exact Or.inr (fun hbi => hab (hai.trans hbi.symm))
        · exact Or.inl hai

theorem sq_diagFill (X : List (List F)) (p : ℕ) : Sq (diagFill X p) p := by
  unfold diagFill
  have : ∀ (l : List ℕ) (S : Mat), Sq S p →
      Sq (l.foldl (fun T i => setM T i i (npVar (colF X i))) S) p := by
    intro l
    induction l with
    | nil => intro S h; exact h
    | cons i t ih => intro S h; exact ih _ (sq_setM h i i _)
  exact this _ _ (sq_replicate p (F.fin 0))

theorem getM_diagFill (X : List (List F)) (p : ℕ) (a b : ℕ) :
    getM (diagFill X p) a b
      = if a = b ∧ a < p then npVar (colF X a) else F.fin 0 := by
  unfold diagFill
  rw [diagGo_get X p (List.range p) _ (sq_replicate p (F.fin 0))
    (fun i hi => List.mem_range.mp hi) (List.nodup_range p) a b]
  simp only [List.mem_range]
  split <;> [rfl; exact getM_replicate p a b]

theorem halveGo_get (p : ℕ) :
    ∀ (l : List ℕ) (S : Mat), Sq S p → (∀ i ∈ l, i < p) → l.Nodup →
    ∀ a b, getM (l.foldl (fun T i => setM T i i (F.mul (getM T i i) (F.fin (1/2)))) S) a b
      = if a = b ∧ a ∈ l then F.mul (getM S a a) (F.fin (1/2)) else getM S a b := by
  intro l
  induction l with
  | nil => intro S _ _ _ a b; simp
  | cons i t ih =>
      intro S hsq hmem hnd a b
      have hip : i < p := hmem i (List.mem_cons_self _ _)
      have hnd' := List.nodup_cons.mp hnd
      have hsq' := sq_setM hsq i i (F.mul (getM S i i) (F.fin (1/2)))
      simp only [List.foldl_cons]
      rw [ih _ hsq' (fun x hx => hmem x (List.mem_cons_of_mem _ hx)) hnd'.2]
      by_cases hab : a = b
      · subst hab
        by_cases hat : a ∈ t
        · have hai : a ≠ i := fun h => hnd'.1 (h ▸ hat)
          rw [if_pos ⟨rfl, hat⟩, if_pos ⟨rfl, List.mem_cons_of_mem _ hat⟩,
            getM_setM_ne S i i a a _ (Or.inl hai)]
        · by_cases hai : a = i
          · subst hai
            rw [if_neg (fun h => hat h.2), if_pos ⟨rfl, List.mem_cons_self _ _⟩]
            exact getM_setM_self hsq hip hip _
          · rw [if_neg (fun h => hat h.2), if_neg (fun h => by
              rcases List.mem_cons.mp h.2 with h' | h'
              · exact hai h'
              · exact hat h')]
            exact getM_setM_ne S i i a a _ (Or.inl hai)
      · rw [if_neg (fun h => hab h.1), if_neg (fun h => hab h.1)]
        apply getM_setM_ne
        by_cases hai : a = i
        · exact Or.inr (fun hbi => hab (hai.trans hbi.symm))
        · exact Or.inl hai

theorem getM_halveDiag (S : Mat) (p : ℕ) (hsq : Sq S p) (a b : ℕ) :
    getM (halveDiag S p) a b
      = if a = b ∧ a < p then F.mul (getM S a a) (F.fin (1/2)) else getM S a b := by
  unfold halveDiag
  rw [halveGo_get p (List.range p) S hsq (fun i hi => List.mem_range.mp hi)
    (List.nodup_range p) a b]
  simp only [List.mem_range]

theorem mem_upperIdx (p i j : ℕ) :
    (i, j) ∈ upperIdx p ↔ i < j ∧ j < p := by
  unfold upperIdx
  simp only [List.mem_filter, List.product, List.mem_map, List.mem_range,
    decide_eq_true_eq]
  constructor
  · rintro ⟨h1, h2⟩
    simp only [List.mem_flatMap, List.mem_map, List.mem_range] at h1
    obtain ⟨x, hx, y, hy, hxy⟩ := h1
    cases hxy
    exact ⟨h2, hy⟩
  · rintro ⟨hij, hjp⟩
    refine ⟨?_, hij⟩
    simp only [List.mem_flatMap, List.mem_map, List.mem_range]
    exact ⟨i, by omega, j, hjp, rfl⟩

theorem nodup_upperIdx (p : ℕ) : (upperIdx p).Nodup :=
  ((List.nodup_range p).product (List.nodup_range p)).filter _

theorem foldPairs_spec (nm : Numerics) (X : List (List F)) (p : ℕ) :
    ∀ (ps : List (ℕ × ℕ)) (S S' : Mat),
    foldPairs nm X ps S = .ok S' → Sq S p →
    (∀ q ∈ ps, q.1 < q.2 ∧ q.2 < p) → ps.Nodup →
    Sq S' p
    ∧ (∀ a b, (a, b) ∉ ps → getM S' a b = getM S a b)
    ∧ (∀ i j, (i, j) ∈ ps →
        pairCell nm X i j (getM S i i) (getM S j j) = .ok (getM S' i j)) := by
  intro ps
  induction ps with
  | nil =>
      intro S S' h hsq _ _
      have : S = S' := by
        simpa [foldPairs, List.foldlM, pure, Except.pure] using h
      subst this
      exact ⟨hsq, fun _ _ _ => rfl, fun _ _ h => by simp at h⟩
  | cons q t ih =>
      intro S S' h hsq hub hnd
      obtain ⟨i, j⟩ := q
      have hij : i < j ∧ j < p := hub (i, j) (List.mem_cons_self _ _)
      have hip : i < p := by omega
      have hnd' := List.nodup_cons.mp hnd
      rw [foldPairs, List.foldlM_cons] at h
      obtain ⟨v, hv, hrest⟩ : ∃ v,
          pairCell nm X i j (getM S i i) (getM S j j) = .ok v
          ∧ foldPairs nm X t (setM S i j v) = .ok S' := by
        cases hc : pairCell nm X i j (getM S i i) (getM S j j) with
        | error e =>
            exfalso
            unfold pairStep at h
            rw [hc] at h
            simp [Except.map, bind, Except.bind] at h
        | ok v =>
            refine ⟨v, rfl, ?_⟩
            unfold pairStep at h
            rw [hc] at h
            simpa [foldPairs, Except.map, bind, Except.bind] using h
      have hsq' := sq_setM hsq i j v
      obtain ⟨ihsq, ihnot, ihmem⟩ := ih (setM S i j v) S' hrest hsq'
        (fun q hq => hub q (List.mem_cons_of_mem _ hq)) hnd'.2
      have hdiag : ∀ a, getM (setM S i j v) a a = getM S a a := by
        intro a
        apply getM_setM_ne
        by_cases hai : a = i
        · exact Or.inr (fun haj => by omega)
        · exact Or.inl hai
      refine ⟨ihsq, ?_, ?_⟩
      · intro a b hab
        have hab1 : (a, b) ∉ t := fun hh => hab (List.mem_cons_of_mem _ hh)
        have hab2 : (a, b) ≠ (i, j) := fun hh => hab (hh ▸ List.mem_cons_self _ _)
        rw [ihnot a b hab1]
        apply getM_setM_ne
        by_cases hai : a = i
        · exact Or.inr (fun hbj => hab2 (by rw [hai, hbj]))
        · exact Or.inl hai
      · intro i' j' hmem
        rcases List.mem_cons.mp hmem with hh | hh
        · have hi' : i' = i := congrArg Prod.fst hh
          have hj' : j' = j := congrArg Prod.snd hh
          subst hi'
          subst hj'
          have : getM S' i' j' = getM (setM S i' j' v) i' j' :=
            ihnot i' j' (fun hc => hnd'.1 hc)
          rw [this, getM_setM_self hsq hip hij.2 v]
          exact hv
        · have := ihmem i' j' hh
          rwa [hdiag i', hdiag j'] at this

theorem length_symmM (S : Mat) : (symmM S).length = S.length := by
  simp [symmM]

theorem getM_symmM (S : Mat) (a b : ℕ)
    (ha : a < S.length) (hb : b < S.length) :
    getM (symmM S) a b = F.add (getM S a b) (getM S b a) := by
  unfold symmM getM
  rw [getD_map_range _ _ _ _ ha, getD_map_range _ _ _ _ hb]

theorem getM_symmM_out (S : Mat) (a b : ℕ)
    (h : S.length ≤ a ∨ S.length ≤ b) :
    getM (symmM S) a b = F.fin 0 := by
  unfold symmM getM
  rcases Nat.lt_or_ge a S.length with ha | ha
  · rcases h with h1 | h1
    · omega
    · rw [getD_map_range _ _ _ _ ha]
      exact List.getD_eq_default _ _ (by simpa using h1)
  · rw [getD_map_range_ge _ _ _ _ ha]
    simp

theorem sq_symmM (S : Mat) (p : ℕ) (h : S.length = p) : Sq (symmM S) p := by
  constructor
  · rw [length_symmM, h]
  · intro r hr
    unfold symmM at hr
    obtain ⟨i, _, hi⟩ := List.mem_map.mp hr
    rw [← hi]
    simp [h]

/-- Extraction of the structure of a successful `fitCore` run. -/
theorem fitCore_ok (nm : Numerics) (X : List (List F)) (S : Mat)
    (h : fitCore nm X = .ok S) :
    ∃ S2, foldPairs nm X (upperIdx (ncols X)) (diagFill X (ncols X)) = .ok S2
      ∧ S = halveDiag (symmM S2) (ncols X) := by
  have h' : (match foldPairs nm X (upperIdx (ncols X)) (diagFill X (ncols X)) with
      | .error e => (.error e : Except Err Mat)
      | .ok S2 => .ok (halveDiag (symmM S2) (ncols X))) = .ok S := h
  cases hf : foldPairs nm X (upperIdx (ncols X)) (diagFill X (ncols X)) with
  | error e => rw [hf] at h'; cases h'
  | ok S2 =>
      rw [hf] at h'
      exact ⟨S2, rfl, (Except.ok.inj h').symm⟩

theorem upperIdx_bound (p : ℕ) : ∀ q ∈ upperIdx p, q.1 < q.2 ∧ q.2 < p := by
  intro q hq
  obtain ⟨i, j⟩ := q
  exact (mem_upperIdx p i j).mp hq

/-- Everything `fitCore` establishes on success, packaged: the final matrix
is the halved-diagonal symmetrization of the pairwise-filled matrix. -/
theorem fitCore_ok_parts (nm : Numerics) (X : List (List F)) (S : Mat)
    (h : fitCore nm X = .ok S) :
    ∃ S2, S = halveDiag (symmM S2) (ncols X)
      ∧ Sq S2 (ncols X)
      ∧ (∀ a b, (a, b) ∉ upperIdx (ncols X) →
          getM S2 a b = getM (diagFill X (ncols X)) a b)
      ∧ (∀ i j, (i, j) ∈ upperIdx (ncols X) →
          pairCell nm X i j (getM (diagFill X (ncols X)) i i)
            (getM (diagFill X (ncols X)) j j) = .ok (getM S2 i j)) := by
  obtain ⟨S2, hfold, hS⟩ := fitCore_ok nm X S h
  obtain ⟨hsq2, hnot, hmem⟩ := foldPairs_spec nm X (ncols X) (upperIdx (ncols X))
    _ S2 hfold (sq_diagFill X (ncols X)) (upperIdx_bound (ncols X))
    (nodup_upperIdx (ncols X))
  exact ⟨S2, hS, hsq2, hnot, hmem⟩

end DPERS

/-! The claims. -/

/-- C5: For every 2D input on which `fit` returns, the returned p-by-p
matrix is symmetric: `result[i,j] == result[j,i]` for all `i, j`. -/
theorem fit_result_symmetric (nm : Numerics) (X : List (List F)) (S : Mat)
    (h : fit nm (.d2 X) = .ok S) : ∀ a b, getM S a b = getM S b a := by
  obtain ⟨S2, hS, hsq2, _, _⟩ := fitCore_ok_parts nm X S h
  subst hS
  intro a b
  by_cases hab : a = b
  · subst hab; rfl
  · have hlen : S2.length = ncols X := hsq2.1
    have hsymSq : Sq (symmM S2) (ncols X) := sq_symmM S2 _ hlen
    rw [getM_halveDiag _ _ hsymSq a b, getM_halveDiag _ _ hsymSq b a,
      if_neg (fun hc => hab hc.1), if_neg (fun hc => hab hc.1.symm)]
    rcases Nat.lt_or_ge a S2.length with ha | ha
    · rcases Nat.lt_or_ge b S2.length with hb | hb
      · rw [getM_symmM S2 a b ha hb, getM_symmM S2 b a hb ha]
        exact F.add_comm' _ _
      · rw [getM_symmM_out S2 a b (Or.inr hb), getM_symmM_out S2 b a (Or.inl hb)]
    · rw [getM_symmM_out S2 a b (Or.inl ha), getM_symmM_out S2 b a (Or.inr ha)]

/-- Witness for C5 at a concrete input: a dataset whose first column is
constant, so the pair guard takes the NaN branch and no root extraction
runs; `fit` succeeds and the result is symmetric. -/
theorem fit_result_symmetric_witness :
    fit nmTriv (.d2 [[F.fin 0, F.fin 1], [F.fin 0, F.fin 2]])
      = .ok [[F.fin 0, F.nan], [F.nan, F.fin (1/4)]]
    ∧ getM [[F.fin 0, F.nan], [F.nan, F.fin (1/4)]] 0 1
      = getM [[F.fin 0, F.nan], [F.nan, F.fin (1/4)]] 1 0 :=
  ⟨by with_unfolding_all rfl,
   fit_result_symmetric nmTriv [[F.fin 0, F.fin 1], [F.fin 0, F.fin 2]]
     [[F.fin 0, F.nan], [F.nan, F.fin (1/4)]]
     (by with_unfolding_all rfl) 0 1⟩

/-- C6: `fit` stores pairwise estimates only at upper-triangle positions
(the loop matrix agrees with the diagonal-only matrix everywhere except
strictly above the diagonal), then the matrix is added to its own
transpose, then each diagonal entry is halved; consequently each diagonal
entry of the final matrix equals the marginal variance computed for that
feature over its non-missing observations. -/
theorem fit_diag_is_marginal_variance (nm : Numerics) (X : List (List F))
    (S : Mat) (h : fit nm (.d2 X) = .ok S) :
    (∃ S2, S = halveDiag (symmM S2) (ncols X)
      ∧ ∀ a b, ¬a < b → getM S2 a b = getM (diagFill X (ncols X)) a b)
    ∧ ∀ i, i < ncols X → getM S i i = npVar (colF X i) := by
  obtain ⟨S2, hS, hsq2, hnot, _⟩ := fitCore_ok_parts nm X S h
  subst hS
  have hlow : ∀ a b, ¬a < b → getM S2 a b = getM (diagFill X (ncols X)) a b :=
    fun a b hab =>
      hnot a b (fun hc => hab ((mem_upperIdx (ncols X) a b).mp hc).1)
  refine ⟨⟨S2, rfl, hlow⟩, ?_⟩
  intro i hip
  have hlen : S2.length = ncols X := hsq2.1
  have hsymSq : Sq (symmM S2) (ncols X) := sq_symmM S2 _ hlen
  rw [getM_halveDiag _ _ hsymSq i i, if_pos ⟨rfl, hip⟩,
    getM_symmM S2 i i (by omega) (by omega)]
  rw [hlow i i (by omega), getM_diagFill, if_pos ⟨rfl, hip⟩]
  exact F.halve_double _

/-- Witness for C6 at a concrete input. -/
theorem fit_diag_is_marginal_variance_witness :
    fit nmTriv (.d2 [[F.fin 0, F.fin 1], [F.fin 0, F.fin 2]])
      = .ok [[F.fin 0, F.nan], [F.nan, F.fin (1/4)]]
    ∧ getM [[F.fin 0, F.nan], [F.nan, F.fin (1/4)]] 1 1
      = npVar (colF [[F.fin 0, F.fin 1], [F.fin 0, F.fin 2]] 1) :=
  ⟨by with_unfolding_all rfl,
   (fit_diag_is_marginal_variance nmTriv [[F.fin 0, F.fin 1], [F.fin 0, F.fin 2]]
     [[F.fin 0, F.nan], [F.nan, F.fin (1/4)]]
     (by with_unfolding_all rfl)).2 1 (by decide)⟩

/-- C7: for every input that is not exactly two-dimensional, `fit` fails
with the invalid-input error before any covariance computation proceeds:
no result is produced and the object state is left untouched (the
assertion on line 32 precedes the write of `self.Xtrain` on line 33). -/
theorem fit_rejects_non_2d (nm : Numerics) (st : DPERSState) (A : NDArray)
    (h : ndimA A ≠ 2) :
    fit nm A = .error .invalidInput
    ∧ fitWithState nm st A = (st, .error .invalidInput) := by
  cases A with
  | d0 x => exact ⟨rfl, rfl⟩
  | d1 x => exact ⟨rfl, rfl⟩
  | d2 X => exact absurd rfl h
  | d3 x => exact ⟨rfl, rfl⟩

/-- Witness for C7 at a concrete one-dimensional input. -/
theorem fit_rejects_non_2d_witness :
    ndimA (.d1 [F.fin 1]) ≠ 2
    ∧ fit nmTriv (.d1 [F.fin 1]) = .error .invalidInput :=
  ⟨by decide,
   (fit_rejects_non_2d nmTriv ⟨none, none⟩ (.d1 [F.fin 1]) (by decide)).1⟩

/-- C8: the result of `fit` does not depend on the incoming object state
(`self.Xtrain`, `self.cov`), and calling `fit` twice on the same input —
the second call starting from the state the first call left behind —
yields the identical output matrix. -/
theorem fit_deterministic_no_hidden_state (nm : Numerics)
    (st st' : DPERSState) (A : NDArray) :
    (fitWithState nm st A).2 = (fitWithState nm st' A).2
    ∧ (fitWithState nm (fitWithState nm st A).1 A).2
      = (fitWithState nm st A).2 := by
  constructor
  · cases A with
    | d0 x => rfl
    | d1 x => rfl
    | d3 x => rfl
    | d2 X => cases hf : fitCore nm X <;> simp [fitWithState, hf]
  · cases A with
    | d0 x => rfl
    | d1 x => rfl
    | d3 x => rfl
    | d2 X => cases hf : fitCore nm X <;> simp [fitWithState, hf]

/-- C9: the preliminary dropping of rows in which both columns are missing
is logically redundant: the pairwise solver returns the same value with or
without it, for every input and every pair of variances. -/
theorem find_cov_ij_drop_redundant (nm : Numerics) (Xij : List (F × F))
    (Sii Sjj : F) :
    find_cov_ij nm (dropBothMissing Xij) Sii Sjj
      = find_cov_ij nm Xij Sii Sjj := by
  unfold find_cov_ij
  have : jointRows (dropBothMissing Xij) = jointRows Xij := by
    unfold jointRows dropBothMissing
    rw [List.filter_filter]
    apply List.filter_congr
    intro x _
    cases h1 : x.1.isnan <;> cases h2 : x.2.isnan <;> simp [h1, h2]
  rw [this]

/-- C10: for every feature whose computed marginal variance is exactly
zero, `fit` (if it returns) has NaN at every off-diagonal entry of that
feature's row and column; the zero-variance guard is applied at the
orchestration level (the theorem holds for every instantiation of the
numeric-library parameter — the solver is never consulted for those
pairs). -/
theorem fit_zero_variance_row_nan (nm : Numerics) (X : List (List F))
    (S : Mat) (i j : ℕ) (h : fit nm (.d2 X) = .ok S)
    (hi : i < ncols X) (hj : j < ncols X) (hij : j ≠ i)
    (hvar : npVar (colF X i) = F.fin 0) :
    getM S i j = F.nan ∧ getM S j i = F.nan := by
  obtain ⟨S2, hS, hsq2, hnot, hmem⟩ := fitCore_ok_parts nm X S h
  subst hS
  have hlen : S2.length = ncols X := hsq2.1
  have hsymSq : Sq (symmM S2) (ncols X) := sq_symmM S2 _ hlen
  have hdfi : getM (diagFill X (ncols X)) i i = F.fin 0 := by
    rw [getM_diagFill, if_pos ⟨rfl, hi⟩, hvar]
  have key : getM S2 i j = F.nan ∧ getM S2 j i = F.fin 0
      ∨ getM S2 j i = F.nan ∧ getM S2 i j = F.fin 0 := by
    rcases Nat.lt_or_ge i j with hlt | hge
    · left
      have hup : (i, j) ∈ upperIdx (ncols X) := (mem_upperIdx _ i j).mpr ⟨hlt, hj⟩
      have hcell := hmem i j hup
      rw [hdfi] at hcell
      have : pairCell nm X i j (F.fin 0) (getM (diagFill X (ncols X)) j j)
          = .ok F.nan := by
        unfold pairCell
        simp [F.fne0]
      rw [this] at hcell
      constructor
      · exact (Except.ok.inj hcell).symm
      · rw [hnot j i (fun hc => by
            have := (mem_upperIdx _ j i).mp hc; omega),
          getM_diagFill, if_neg (fun hc => hij hc.1)]
    · have hlt' : j < i := by omega
      right
      have hup : (j, i) ∈ upperIdx (ncols X) := (mem_upperIdx _ j i).mpr ⟨hlt', hi⟩
      have hcell := hmem j i hup
      rw [hdfi] at hcell
      have : pairCell nm X j i (getM (diagFill X (ncols X)) j j) (F.fin 0)
          = .ok F.nan := by
        unfold pairCell
        simp [F.fne0]
      rw [this] at hcell
      constructor
      · exact (Except.ok.inj hcell).symm
      · rw [hnot i j (fun hc => by
            have := (mem_upperIdx _ i j).mp hc; omega),
          getM_diagFill, if_neg (fun hc => (hij hc.1.symm))]
  have hji : ¬(i = j) := fun hc => hij hc.symm
  constructor
  · rw [getM_halveDiag _ _ hsymSq i j, if_neg (fun hc => hji hc.1),
      getM_symmM S2 i j (by omega) (by omega)]
    rcases key with ⟨h1, h2⟩ | ⟨h1, h2⟩
    · rw [h1, h2]; rfl
    · rw [h1, h2]; rfl
  · rw [getM_halveDiag _ _ hsymSq j i, if_neg (fun hc => hij hc.1),
      getM_symmM S2 j i (by omega) (by omega)]
    rcases key with ⟨h1, h2⟩ | ⟨h1, h2⟩
    · rw [h1, h2]; rfl
    · rw [h1, h2]; rfl

/-- Witness for C10: the first column is the constant 5, its variance is
exactly zero, and both off-diagonal entries of the fitted matrix are NaN. -/
theorem fit_zero_variance_row_nan_witness :
    fit nmTriv (.d2 [[F.fin 5, F.fin 1], [F.fin 5, F.fin 2]])
      = .ok [[F.fin 0, F.nan], [F.nan, F.fin (1/4)]]
    ∧ npVar (colF [[F.fin 5, F.fin 1], [F.fin 5, F.fin 2]] 0) = F.fin 0
    ∧ getM [[F.fin 0, F.nan], [F.nan, F.fin (1/4)]] 0 1 = F.nan
    ∧ getM [[F.fin 0, F.nan], [F.nan, F.fin (1/4)]] 1 0 = F.nan :=
  ⟨by with_unfolding_all rfl, by with_unfolding_all rfl,
   fit_zero_variance_row_nan nmTriv [[F.fin 5, F.fin 1], [F.fin 5, F.fin 2]]
     [[F.fin 0, F.nan], [F.nan, F.fin (1/4)]] 0 1 (by with_unfolding_all rfl)
     (by decide) (by decide) (by decide) (by with_unfolding_all rfl)⟩

/-- C1: an input whose first feature has zero non-missing observations.
Its marginal variance is NaN as the claim says, but `F.fne0 F.nan = true`
(`NaN != 0` is true in IEEE comparison), so the guard on line 58 does NOT
skip the polynomial step: `find_cov_ij` is invoked with a NaN variance, the
polynomial coefficient array contains NaN, and the root extraction rejects
non-finite values, so `fit` raises `LinAlgError` instead of returning a
NaN row and column.  The theorem holds for every instantiation of the
numeric parameters: the error fires before any eigenvalue extraction. -/
theorem fit_all_missing_feature_raises (nm : Numerics) :
    npVar (colF [[F.nan, F.fin 1], [F.nan, F.fin 2]] 0) = F.nan
    ∧ F.fne0 F.nan = true
    ∧ fit nm (.d2 [[F.nan, F.fin 1], [F.nan, F.fin 2]])
        = .error .linAlgError :=
  ⟨by with_unfolding_all rfl, rfl, by with_unfolding_all rfl⟩

theorem coefOfJ_nil (a b : ℚ) :
    coefOfJ [] (F.fin a) (F.fin b) = [F.fin 0, F.fin 0, F.fin 0, F.fin 0] := by
  unfold coefOfJ
  simp only [List.map_nil, List.length_nil, Nat.cast_zero]
  have hs : F.fsum [] = F.fin 0 := rfl
  rw [hs]
  show [F.mul (F.mul (F.fin 0) (F.fin a)) (F.fin b),
    F.sub (F.sub (F.mul (F.mul (F.fin 0) (F.fin a)) (F.fin b))
      (F.mul (F.fin 0) (F.fin a))) (F.mul (F.fin 0) (F.fin b)),
    F.fin 0, F.neg (F.fin 0)].reverse = _
  simp [F.mul, F.sub, F.add, F.neg]

/-- C2 (amended): for a pair with zero jointly observed rows and finite
marginal variances, all four polynomial coefficients are zero, the
root-finder returns an empty candidate array, and taking the argmax of the
empty objective array raises `ValueError`: `find_cov_ij` raises rather
than storing a sentinel. -/
theorem find_cov_ij_no_joint_rows_raises (nm : Numerics)
    (Xij : List (F × F)) (a b : ℚ) (h : jointRows Xij = []) :
    find_cov_ij nm Xij (F.fin a) (F.fin b) = .error .valueError := by
  unfold find_cov_ij findCovCore candidatesOfJ
  rw [h, coefOfJ_nil]
  with_unfolding_all rfl

/-- Witness for the amended C2: feature 1 observed only where feature 2 is
missing and vice versa. -/
theorem find_cov_ij_no_joint_rows_raises_witness :
    jointRows [(F.fin 1, F.nan), (F.nan, F.fin 1)] = []
    ∧ find_cov_ij nmTriv [(F.fin 1, F.nan), (F.nan, F.fin 1)]
        (F.fin 1) (F.fin 1) = .error .valueError :=
  ⟨by with_unfolding_all rfl,
   find_cov_ij_no_joint_rows_raises nmTriv [(F.fin 1, F.nan), (F.nan, F.fin 1)]
     1 1 (by with_unfolding_all rfl)⟩

/-- Counterexample to C2 as stated: a pair with zero jointly observed rows
and well-defined non-zero marginal variances on which the pairwise
computation raises `ValueError` (the argmax of an empty sequence) instead
of returning normally. -/
theorem find_cov_ij_no_joint_rows_raises_cex :
    find_cov_ij nmTriv [(F.fin 2, F.nan), (F.nan, F.fin 3)]
      (F.fin 4) (F.fin 9) = .error .valueError := by
  with_unfolding_all rfl

/-- C3: at the joint data `{(1,1), (-1,-1)}` with `S_ii = S_jj = 1` the
code's cubic is `-2r^3 + 2r^2 - 2r + 2` (real root 1, complex roots `±i`,
so the candidate list is `[1, 0, 0]`).  At the candidate `r = 1` the
conditional variance `scond` is `0 ≤ 0`; the claim says the objective is
−∞ there, but the code computes `-m * (-inf) = +inf`: the objective is
+∞, the argmax selects the infeasible candidate, and `find_cov_ij`
returns 1, whereas the claim's objective (−∞ for infeasible candidates)
would select the first feasible candidate and return 0. -/
theorem find_cov_ij_infeasible_objective_flipped :
    coefOfJ (jointRows [(F.fin 1, F.fin 1), (F.fin (-1), F.fin (-1))])
        (F.fin 1) (F.fin 1)
      = [F.fin (-2), F.fin 2, F.fin (-2), F.fin 2]
    ∧ F.fin 1 - F.fin 1 * F.fin 1 / F.fin 1 = F.fin 0
    ∧ etaAt nmCubic 2 (F.fin 2) (F.fin 2) (F.fin 1) (F.fin 1) (F.fin 1) = F.pinf
    ∧ etaClaim nmCubic 2 (F.fin 2) (F.fin 2) (F.fin 1) (F.fin 1) (F.fin 1) = F.ninf
    ∧ find_cov_ij nmCubic [(F.fin 1, F.fin 1), (F.fin (-1), F.fin (-1))]
        (F.fin 1) (F.fin 1) = .ok (F.fin 1)
    ∧ findCovClaim nmCubic [(F.fin 1, F.fin 1), (F.fin (-1), F.fin (-1))]
        (F.fin 1) (F.fin 1) = .ok (F.fin 0) :=
  ⟨by with_unfolding_all rfl, by with_unfolding_all rfl,
   by with_unfolding_all rfl, by with_unfolding_all rfl,
   by with_unfolding_all rfl, by with_unfolding_all rfl⟩

theorem jointRows_eq_spec (Xij : List (F × F)) :
    jointRows Xij = jointRowsSpec Xij := by
  unfold jointRows jointRowsSpec
  apply List.filter_congr
  intro x _
  cases h1 : x.1.isnan <;> cases h2 : x.2.isnan <;> simp [h1, h2]

/-- C4: the solver's coefficient array (built reversed in the source and
then flipped with `[::-1]`) is exactly the claimed cubic, with the raw
second-moment sums over exactly the jointly observed rows and no
centering; and the candidate set is the real part of each root the
root-finder produces for that cubic. -/
theorem solver_cubic_matches_claim (nm : Numerics) (Xij : List (F × F))
    (Sii Sjj : F) :
    coefOfJ (jointRows Xij) Sii Sjj = coefSpec (jointRowsSpec Xij) Sii Sjj
    ∧ candidatesOfJ nm (jointRows Xij) Sii Sjj
      = candidatesSpec nm Xij Sii Sjj := by
  have hc : coefOfJ (jointRows Xij) Sii Sjj
      = coefSpec (jointRowsSpec Xij) Sii Sjj := by
    rw [jointRows_eq_spec]
    unfold coefOfJ coefSpec
    rfl
  exact ⟨hc, by unfold candidatesOfJ candidatesSpec; rw [hc]⟩
